import Mathlib

/-!
Verification of the toople-db backend (Go) against its specification.

Shallow embedding conventions:
* Go `time.Time` values are embedded as `Int` instants; `t.Before(u)` is `t < u`
  (Go `Before` is strict).
* Go `int` is embedded as `Int`; Go slices as `List`; Go maps as association lists.
* Fallible Go functions returning `error` are embedded as `Except String`,
  carrying the literal `fmt.Errorf` message of the branch taken.
* The CouchDB gateway is external: a view query is embedded as the pure
  computation of its rows from an explicit store value, ordered by the same key
  order CouchDB uses; optimistic-concurrency and uniqueness failures of the
  gateway are explicit boolean inputs.
-/

/- ===================== Event status (src/unnamed/part_004) ===================== -/

/-- The `event` JSON document of part_004: Id, Location, Title, Info, Creator,
Date, Created, Threshold (Rev/Type omitted as constant metadata). -/
structure eventDoc where
  id : String
  location : String
  title : String
  info : String
  creator : String
  date : Int
  created : Int
  threshold : Int
deriving DecidableEq

/-- The `participant` JSON document of part_004: Id, User, Event, Date. -/
structure participantDoc where
  id : String
  user : String
  event : String
  date : Int
deriving DecidableEq

/-- The in-memory `Event` of part_004: the event document plus the loaded
participant documents.  The `users` and `circles` fields of the Go struct are
not consulted by any function modelled here and are carried as id lists. -/
structure Event where
  doc : eventDoc
  participants : List participantDoc
  users : List String := []
  circles : List String := []
deriving DecidableEq

/-- part_004 lines 254-262, `func (e *Event) Status() string`:
`if len(e.participants) < e.doc.Threshold { if e.doc.Date.Before(time.Now()) { return "Cancelled" }; return "Pending" }; return "Confirmed"`. -/
def Event.Status (e : Event) (now : Int) : String :=
  if (e.participants.length : Int) < e.doc.threshold then
    if e.doc.date < now then "Cancelled" else "Pending"
  else "Confirmed"

/-- C1: for every threshold, participant count, scheduled date and current time,
the status is Confirmed iff the count reaches the threshold; otherwise it is
Cancelled iff the date is past; otherwise Pending; and once the count reaches
the threshold no larger count yields a different status. -/
theorem c1_status_derivation (e : Event) (now : Int) :
    (Event.Status e now = "Confirmed" ↔ e.doc.threshold ≤ (e.participants.length : Int)) ∧
    (Event.Status e now = "Cancelled" ↔
      ((e.participants.length : Int) < e.doc.threshold ∧ e.doc.date < now)) ∧
    (Event.Status e now = "Pending" ↔
      ((e.participants.length : Int) < e.doc.threshold ∧ ¬ e.doc.date < now)) ∧
    (∀ e' : Event, e'.doc = e.doc →
      e.participants.length ≤ e'.participants.length →
      e.doc.threshold ≤ (e.participants.length : Int) →
      Event.Status e' now = Event.Status e now) := by
  refine ⟨?_, ?_, ?_, ?_⟩
  · unfold Event.Status
    constructor
    · intro h
      by_cases hc : (e.participants.length : Int) < e.doc.threshold
      · rw [if_pos hc] at h
        by_cases hd : e.doc.date < now
        · rw [if_pos hd] at h; exact absurd h (by decide)
        · rw [if_neg hd] at h; exact absurd h (by decide)
      · omega
    · intro h
      rw [if_neg (by omega)]
  · unfold Event.Status
    constructor
    · intro h
      by_cases hc : (e.participants.length : Int) < e.doc.threshold
      · rw [if_pos hc] at h
        by_cases hd : e.doc.date < now
        · exact ⟨hc, hd⟩
        · rw [if_neg hd] at h; exact absurd h (by decide)
      · rw [if_neg hc] at h; exact absurd h (by decide)
    · rintro ⟨hc, hd⟩
      rw [if_pos hc, if_pos hd]
  · unfold Event.Status
    constructor
    · intro h
      by_cases hc : (e.participants.length : Int) < e.doc.threshold
      · rw [if_pos hc] at h
        by_cases hd : e.doc.date < now
        · rw [if_pos hd] at h; exact absurd h (by decide)
        · exact ⟨hc, hd⟩
      · rw [if_neg hc] at h; exact absurd h (by decide)
    · rintro ⟨hc, hd⟩
      rw [if_pos hc, if_neg hd]
  · intro e' hdoc hlen hth
    unfold Event.Status
    rw [hdoc]
    have h1 : ¬ ((e'.participants.length : Int) < e.doc.threshold) := by
      have := Int.ofNat_le.mpr hlen
      omega
    have h2 : ¬ ((e.participants.length : Int) < e.doc.threshold) := by omega
    rw [if_neg h1, if_neg h2]

/-- A concrete event used to instantiate theorems: threshold 2, scheduled at
instant 100, two participants. -/
def sampleEvent1 : Event :=
  { doc := ⟨"e1", "loc", "title", "info", "u1", 100, 0, 2⟩
    participants := [⟨"p1", "u1", "e1", 10⟩, ⟨"p2", "u2", "e1", 20⟩] }

/-- Witness for C1: at the concrete `sampleEvent1` the Confirmed iff is
discharged concretely. -/
theorem c1_status_derivation_witness : Event.Status sampleEvent1 50 = "Confirmed" :=
  ((c1_status_derivation sampleEvent1 50).1).mpr (by decide)

/-- The event of the C2 scenario: threshold 3, scheduled 2024-06-01 (encoded
20240601), participants joined 2024-05-01, 2024-05-15 and 2024-06-10. -/
def scenarioEvent : Event :=
  { doc := ⟨"E", "loc", "title", "info", "A", 20240601, 20240401, 3⟩
    participants :=
      [⟨"p1", "A", "E", 20240501⟩, ⟨"p2", "B", "E", 20240515⟩, ⟨"p3", "C", "E", 20240610⟩] }

/-- C2 counterexample: per the claim the scenario event must not be Confirmed
(only 2 of its 3 participants joined strictly before the scheduled date), but
`Status` counts all participation records and returns Confirmed. -/
theorem c2_counterexample : Event.Status scenarioEvent 20240520 = "Confirmed" := by decide

/-- C2 amended: the participant count used against the threshold is the total
number of participation records regardless of join timestamps — the status
depends only on the document and the number of records, and the scenario event
is Confirmed at every current time. -/
theorem c2_count_is_total (e e' : Event) (now : Int)
    (hdoc : e'.doc = e.doc)
    (hlen : e'.participants.length = e.participants.length) :
    Event.Status e' now = Event.Status e now ∧
    ∀ t : Int, Event.Status scenarioEvent t = "Confirmed" := by
  constructor
  · unfold Event.Status
    rw [hdoc, hlen]
  · intro t
    unfold Event.Status
    rw [if_neg (by decide)]

/-- Witness for C2 amended at two concrete events differing only in the
participant join dates. -/
theorem c2_count_is_total_witness :
    Event.Status { doc := ⟨"E", "l", "t", "i", "A", 100, 0, 1⟩,
                   participants := [⟨"q1", "A", "E", 999⟩] } 50 =
      Event.Status { doc := ⟨"E", "l", "t", "i", "A", 100, 0, 1⟩,
                     participants := [⟨"q1", "A", "E", 1⟩] } 50 :=
  (c2_count_is_total
    { doc := ⟨"E", "l", "t", "i", "A", 100, 0, 1⟩, participants := [⟨"q1", "A", "E", 1⟩] }
    { doc := ⟨"E", "l", "t", "i", "A", 100, 0, 1⟩, participants := [⟨"q1", "A", "E", 999⟩] }
    50 rfl rfl).1

/-- An event document with zero participation records (threshold 1, scheduled
at instant 100). -/
def emptyEvent : Event :=
  { doc := ⟨"E0", "loc", "title", "info", "A", 100, 0, 1⟩, participants := [] }

/-- C3 counterexample: per the claim, computing the status of an event with
zero participation records must fail with an InconsistencyError and never
return Pending; the code has no failure path and returns Pending here. -/
theorem c3_counterexample : Event.Status emptyEvent 50 = "Pending" := by decide

/-- C3 amended: computing the status of an event with zero participation
records does not fail; it returns Confirmed when the threshold is at most 0,
otherwise Cancelled when the scheduled date is past, otherwise Pending. -/
theorem c3_zero_participants (e : Event) (now : Int) (h : e.participants = []) :
    Event.Status e now =
      if e.doc.threshold ≤ 0 then "Confirmed"
      else if e.doc.date < now then "Cancelled" else "Pending" := by
  unfold Event.Status
  rw [h]
  by_cases ht : e.doc.threshold ≤ 0
  · rw [if_neg (by simp; omega), if_pos ht]
  · rw [if_pos (by simp; omega), if_neg ht]

/-- Witness for C3 amended at the concrete zero-participant event. -/
theorem c3_zero_participants_witness :
    Event.Status emptyEvent 50 =
      if (1 : Int) ≤ 0 then "Confirmed"
      else if (100 : Int) < 50 then "Cancelled" else "Pending" :=
  c3_zero_participants emptyEvent 50 rfl

/- ===================== JoinEvent (src/circle.go 631-667, part_003 437-464) ===================== -/

/-- A participation record as created by `JoinEvent`: user, event, join date
(the CouchDB id/rev are assigned by the store and not modelled). -/
structure pRec where
  user : String
  event : String
  date : Int
deriving DecidableEq

/-- src/circle.go lines 631-667 (equivalently part_003 lines 437-464),
`func (db *DB) JoinEvent(event, user string) error`: query the participation
records of the event; if one with this user exists return nil without posting;
otherwise post a new participant document dated `time.Now()`. The store is the
list of participation documents. -/
def JoinEvent (store : List pRec) (event user : String) (now : Int) : List pRec :=
  if store.any (fun p => p.event == event && p.user == user) then store
  else store ++ [⟨user, event, now⟩]

/-- C4: JoinEvent is idempotent — an existing participation record for
(event, user) makes the call a no-op on the store; otherwise exactly one new
record timestamped at the call is appended; and joining twice leaves the same
store as joining once. -/
theorem c4_joinEvent_idempotent (store : List pRec) (ev u : String) (t1 t2 : Int) :
    ((∃ p ∈ store, p.event = ev ∧ p.user = u) → JoinEvent store ev u t1 = store) ∧
    ((¬ ∃ p ∈ store, p.event = ev ∧ p.user = u) →
      JoinEvent store ev u t1 = store ++ [⟨u, ev, t1⟩]) ∧
    JoinEvent (JoinEvent store ev u t1) ev u t2 = JoinEvent store ev u t1 := by
  have hany : (store.any (fun p => p.event == ev && p.user == u) = true) ↔
      (∃ p ∈ store, p.event = ev ∧ p.user = u) := by
    rw [List.any_eq_true]
    constructor
    · rintro ⟨p, hp, hb⟩
      rw [Bool.and_eq_true, beq_iff_eq, beq_iff_eq] at hb
      exact ⟨p, hp, hb⟩
    · rintro ⟨p, hp, h1, h2⟩
      exact ⟨p, hp, by rw [Bool.and_eq_true, beq_iff_eq, beq_iff_eq]; exact ⟨h1, h2⟩⟩
  refine ⟨?_, ?_, ?_⟩
  · intro hex
    unfold JoinEvent
    rw [if_pos (hany.mpr hex)]
  · intro hnex
    unfold JoinEvent
    rw [if_neg (fun hc => hnex (hany.mp hc))]
  · by_cases hex : ∃ p ∈ store, p.event = ev ∧ p.user = u
    · unfold JoinEvent
      rw [if_pos (hany.mpr hex), if_pos (hany.mpr hex)]
    · have h1 : JoinEvent store ev u t1 = store ++ [⟨u, ev, t1⟩] := by
        unfold JoinEvent
        rw [if_neg (fun hc => hex (hany.mp hc))]
      rw [h1]
      unfold JoinEvent
      rw [if_pos]
      rw [List.any_eq_true]
      exact ⟨⟨u, ev, t1⟩, by simp⟩

/-- Witness for C4 at a concrete store: the pair is already present, so the
call leaves the store unchanged. -/
theorem c4_joinEvent_idempotent_witness :
    JoinEvent [⟨"alice", "E1", 7⟩] "E1" "alice" 9 = [⟨"alice", "E1", 7⟩] :=
  (c4_joinEvent_idempotent [⟨"alice", "E1", 7⟩] "E1" "alice" 9 9).1
    ⟨⟨"alice", "E1", 7⟩, by simp⟩

/- ===================== Admin invariant (src/user.go 207-258, src/circle.go 299-346) ===================== -/

/-- The rights of circle.go: post, invite, admin. -/
inductive Right where
  | post
  | invite
  | admin
deriving DecidableEq

/-- circle.go lines 457-464, `func isAdmin(rs []Right) bool`: scan the list for
`Admin`. -/
def isAdmin (rs : List Right) : Bool :=
  rs.contains Right.admin

/-- The `circle` document of circle.go (second variant): Name, Slug and the
Members map from user id to rights, embedded as an association list. -/
structure circleDoc where
  name : String
  slug : String
  members : List (String × List Right)
deriving DecidableEq

/-- Go `c.doc.Members[id]`: map lookup, yielding nil (the empty rights list)
when the key is absent. -/
def memberRights (c : circleDoc) (uid : String) : List Right :=
  (c.members.lookup uid).getD []

/-- src/circle.go lines 299-346, `func (db *DB) PutCircle(c *Circle) error`:
reject empty name, empty slug, empty member map, member map with no admin,
a non-unique slug, and an optimistic-concurrency conflict; otherwise write the
document.  The two store outcomes (slug view hit on another id, put conflict)
are explicit boolean inputs. -/
def putCircle (slugTaken conflict : Bool) (c : circleDoc) : Except String circleDoc :=
  if c.name = "" then .error "put circle: circle has no name"
  else if c.slug = "" then .error "put circle: circle has no slug"
  else if c.members.isEmpty then .error "put circle: circle has no members"
  else if !(c.members.any (fun p => isAdmin p.2)) then .error "put circle: circle has no admin"
  else if slugTaken then .error "put circle: slug is not unique"
  else if conflict then .error "put circle: conflict, get a fresh revision and try again"
  else .ok c

/-- src/user.go lines 213-230, the per-circle body of `DeleteUser`: if the
target holds admin and some other member also holds admin, fail with the
"only admin" error; otherwise remove the membership entry from the local copy
and write it back through `PutCircle`.  An error leaves the stored circle
unchanged; `.ok` is the circle now stored. -/
def deleteUserStep (slugTaken conflict : Bool) (c : circleDoc) (uid : String) :
    Except String circleDoc :=
  if isAdmin (memberRights c uid) && c.members.any (fun p => p.1 ≠ uid && isAdmin p.2) then
    .error "delete user: user is the only admin of a circle"
  else
    putCircle slugTaken conflict { c with members := c.members.filter (fun p => p.1 ≠ uid) }

/-- A removal operation: the member to remove together with the two external
store outcomes seen by its `PutCircle`. -/
def RemOp : Type := String × Bool × Bool

/-- A sequence of removal operations applied to a stored circle: a failing
operation leaves the stored circle unchanged. -/
def runRemovals (c : circleDoc) (ops : List RemOp) : circleDoc :=
  ops.foldl
    (fun c op =>
      match deleteUserStep op.2.1 op.2.2 c op.1 with
      | .ok c' => c'
      | .error _ => c)
    c

/-- The admin invariant of the spec: a non-empty circle has at least one member
holding admin. -/
def circleInv (c : circleDoc) : Prop :=
  c.members ≠ [] → ∃ p ∈ c.members, isAdmin p.2 = true

/-- Successful `putCircle` writes only documents satisfying the invariant, and
writes exactly the given document. -/
theorem putCircle_ok_inv {slugTaken conflict : Bool} {c c' : circleDoc}
    (h : putCircle slugTaken conflict c = .ok c') :
    c' = c ∧ c'.members ≠ [] ∧ ∃ p ∈ c'.members, isAdmin p.2 = true := by
  unfold putCircle at h
  by_cases h1 : c.name = ""
  · rw [if_pos h1] at h; exact absurd h (by simp)
  rw [if_neg h1] at h
  by_cases h2 : c.slug = ""
  · rw [if_pos h2] at h; exact absurd h (by simp)
  rw [if_neg h2] at h
  by_cases h3 : c.members.isEmpty
  · rw [if_pos h3] at h; exact absurd h (by simp)
  rw [if_neg h3] at h
  by_cases h4 : c.members.any (fun p => isAdmin p.2)
  · rw [h4] at h
    simp only [Bool.not_true, Bool.false_eq_true, if_false] at h
    by_cases h5 : slugTaken
    · rw [if_pos h5] at h; exact absurd h (by simp)
    rw [if_neg h5] at h
    by_cases h6 : conflict
    · rw [if_pos h6] at h; exact absurd h (by simp)
    rw [if_neg h6] at h
    have hcc : c' = c := by
      cases h; rfl
    subst hcc
    refine ⟨rfl, ?_, ?_⟩
    · intro hnil
      rw [hnil] at h3
      exact h3 rfl
    · rw [List.any_eq_true] at h4
      exact h4
  · rw [Bool.not_eq_true] at h4
    rw [h4] at h
    exact absurd h (by simp)

/-- C5: removing a membership whose holder is the only admin fails and performs
no mutation on that circle; every successful `putCircle` write satisfies the
admin invariant; and no sequence of removal operations breaks the invariant of
a stored circle. -/
theorem c5_sole_admin_protected (c : circleDoc) (uid : String) (st ct : Bool)
    (hadm : isAdmin (memberRights c uid) = true)
    (hsole : ∀ p ∈ c.members, p.1 ≠ uid → isAdmin p.2 = false) :
    (∃ msg, deleteUserStep st ct c uid = .error msg) ∧
    (∀ (st2 ct2 : Bool) (d d' : circleDoc), putCircle st2 ct2 d = .ok d' →
      d'.members ≠ [] ∧ ∃ p ∈ d'.members, isAdmin p.2 = true) ∧
    (∀ (c0 : circleDoc) (ops : List RemOp), circleInv c0 → circleInv (runRemovals c0 ops)) := by
  refine ⟨?_, ?_, ?_⟩
  · unfold deleteUserStep
    have hnone : c.members.any (fun p => p.1 ≠ uid && isAdmin p.2) = false := by
      rw [Bool.eq_false_iff]
      intro hc
      rw [List.any_eq_true] at hc
      obtain ⟨p, hp, hb⟩ := hc
      rw [Bool.and_eq_true, decide_eq_true_iff] at hb
      have := hsole p hp hb.1
      rw [this] at hb
      exact absurd hb.2 (by simp)
    rw [hadm, hnone]
    simp only [Bool.and_false, Bool.false_eq_true, if_false]
    set d : circleDoc := { c with members := c.members.filter (fun p => p.1 ≠ uid) } with hd
    rcases hput : putCircle st ct d with msg | d'
    · exact ⟨msg, rfl⟩
    · exfalso
      obtain ⟨heq, _, p, hpmem, hpadm⟩ := putCircle_ok_inv hput
      rw [heq, hd] at hpmem
      have hpm : p ∈ c.members ∧ (p.1 ≠ uid) := by
        have := List.mem_filter.mp hpmem
        exact ⟨this.1, by simpa using this.2⟩
      have := hsole p hpm.1 hpm.2
      rw [this] at hpadm
      exact absurd hpadm (by simp)
  · intro st2 ct2 d d' h
    exact (putCircle_ok_inv h).2
  · intro c0 ops
    induction ops generalizing c0 with
    | nil => intro h; exact h
    | cons op ops ih =>
      intro h
      show circleInv (runRemovals _ _)
      unfold runRemovals
      rw [List.foldl_cons]
      rcases hstep : deleteUserStep op.2.1 op.2.2 c0 op.1 with msg | c'
      · simp only [hstep]
        exact ih c0 h
      · simp only [hstep]
        refine ih c' ?_
        unfold deleteUserStep at hstep
        intro _
        by_cases hb : isAdmin (memberRights c0 op.1) && c0.members.any (fun p => p.1 ≠ op.1 && isAdmin p.2)
        · rw [if_pos hb] at hstep
          exact absurd hstep (by simp)
        · rw [if_neg hb] at hstep
          exact (putCircle_ok_inv hstep).2.2

/-- Witness for C5: a circle whose single member is the sole admin; removing
that member fails. -/
theorem c5_sole_admin_protected_witness :
    ∃ msg, deleteUserStep false false ⟨"club", "club", [("alice", [.post, .invite, .admin])]⟩
      "alice" = .error msg :=
  (c5_sole_admin_protected ⟨"club", "club", [("alice", [.post, .invite, .admin])]⟩
    "alice" false false (by decide) (by decide)).1

/- ===================== User emails (src/user.go 164-171, 300-336) ===================== -/

/-- src/user.go `normalizeEmail` (and part_001 lines 164-171): lowercase the
part after the last `@`.  Go `strings.ToLower` is modelled on codepoints by
`Char.toLower` (exact on ASCII, the relevant range for the mail domain). -/
def normalizeEmail (s : String) : String :=
  match (s.data.reverse.findIdx? (fun c => c == '@')) with
  | none => s
  | some k =>
    let n := s.data.length - 1 - k
    ⟨s.data.take (n + 1) ++ (s.data.drop (n + 1)).map Char.toLower⟩

/-- The Go `for i, e := range emails` search loop: index of the first list
element satisfying the predicate. -/
def findIdx : (String → Bool) → List String → Option Nat
  | _, [] => none
  | p, x :: xs => if p x then some 0 else (findIdx p xs).map (· + 1)

/-- src/user.go lines 323-336, `func (u *User) SetPrimaryEmail(email string)`:
reject the empty string; normalize; if the email is present at index i, move it
to the front; otherwise prepend it.  The email list is the state. -/
def SetPrimaryEmail (emails : List String) (email : String) : Except String (List String) :=
  if email = "" then .error "add email: empty email address"
  else
    let e := normalizeEmail email
    match findIdx (fun x => x == e) emails with
    | some i => .ok (e :: (emails.take i ++ emails.drop (i + 1)))
    | none => .ok (e :: emails)

/-- src/user.go lines 303-318, `func (u *User) RemoveEmail(email string)`:
reject the empty string; normalize; error when the match is the last remaining
email or when no entry matches; otherwise drop the matching entry. -/
def RemoveEmail (emails : List String) (email : String) : Except String (List String) :=
  if email = "" then .error "remove email: empty email address"
  else
    let e := normalizeEmail email
    match findIdx (fun x => x == e) emails with
    | some i =>
      if emails.length < 2 then .error "remove email: cannot remove the last email address"
      else .ok (emails.take i ++ emails.drop (i + 1))
    | none => .error "remove email: not found"

/-- An email-list operation of the claim: SetPrimaryEmail or RemoveEmail. -/
inductive EmailOp where
  | setPrimary (email : String)
  | remove (email : String)

/-- A sequence of email operations applied to a list; a failing operation
leaves the list unchanged (the user document is not written). -/
def runEmailOps (emails : List String) (ops : List EmailOp) : List String :=
  ops.foldl
    (fun es op =>
      match op with
      | .setPrimary e => match SetPrimaryEmail es e with | .ok es' => es' | .error _ => es
      | .remove e => match RemoveEmail es e with | .ok es' => es' | .error _ => es)
    emails

/-- `findIdx` returns an index inside the list. -/
theorem findIdx_lt_length {p : String → Bool} :
    ∀ {l : List String} {i : Nat}, findIdx p l = some i → i < l.length := by
  intro l
  induction l with
  | nil => intro i h; exact absurd h (by simp [findIdx])
  | cons x xs ih =>
    intro i h
    unfold findIdx at h
    by_cases hp : p x
    · rw [if_pos hp] at h
      cases h
      simp
    · rw [if_neg hp] at h
      rcases hx : findIdx p xs with _ | j
      · rw [hx] at h; exact absurd h (by simp)
      · rw [hx] at h
        simp only [Option.map_some'] at h
        cases h
        have := ih hx
        simp only [List.length_cons]
        omega

/-- C9 counterexample: the claim says SetPrimaryEmail always places the given
email at position 0, but the code stores the normalized form — with an
uppercase domain the entry at position 0 differs from the given email. -/
theorem c9_counterexample :
    SetPrimaryEmail ["x@y.com"] "a@B.com" = .ok ["a@b.com", "x@y.com"] ∧
    ("a@b.com" : String) ≠ "a@B.com" := by
  constructor
  · rfl
  · decide

/-- C9 amended: the email list is ordered with the entry at position 0 primary
and never empty — NewUser initializes the list to exactly the normalized given
email, SetPrimaryEmail places the normalized form of the given email at
position 0 (failing on the empty string), RemoveEmail never returns an empty
list, and no sequence of these operations empties a non-empty list. -/
theorem c9_email_invariant :
    (∀ email : String, email ≠ "" → SetPrimaryEmail [] email = .ok [normalizeEmail email]) ∧
    (∀ (es : List String) (email : String) (es' : List String),
      SetPrimaryEmail es email = .ok es' → es'.head? = some (normalizeEmail email)) ∧
    (∀ (es : List String) (email : String) (es' : List String),
      RemoveEmail es email = .ok es' → es' ≠ []) ∧
    (∀ (es : List String) (ops : List EmailOp), es ≠ [] → runEmailOps es ops ≠ []) := by
  have hset : ∀ (es : List String) (email : String) (es' : List String),
      SetPrimaryEmail es email = .ok es' → es'.head? = some (normalizeEmail email) := by
    intro es email es' h
    unfold SetPrimaryEmail at h
    by_cases he : email = ""
    · rw [if_pos he] at h; exact absurd h (by simp)
    · rw [if_neg he] at h
      rcases hf : findIdx (fun x => x == normalizeEmail email) es with _ | i
      · simp only [hf] at h
        cases h
        rfl
      · simp only [hf] at h
        cases h
        rfl
  have hrem : ∀ (es : List String) (email : String) (es' : List String),
      RemoveEmail es email = .ok es' → es' ≠ [] := by
    intro es email es' h
    unfold RemoveEmail at h
    by_cases he : email = ""
    · rw [if_pos he] at h; exact absurd h (by simp)
    · rw [if_neg he] at h
      rcases hf : findIdx (fun x => x == normalizeEmail email) es with _ | i
      · simp only [hf] at h; exact absurd h (by simp)
      · simp only [hf] at h
        by_cases hl : es.length < 2
        · rw [if_pos hl] at h; exact absurd h (by simp)
        · rw [if_neg hl] at h
          cases h
          have hi := findIdx_lt_length hf
          intro hnil
          have hlen := congrArg List.length hnil
          rw [List.length_append, List.length_take, List.length_drop] at hlen
          simp only [List.length_nil] at hlen
          omega
  refine ⟨?_, hset, hrem, ?_⟩
  · intro email he
    unfold SetPrimaryEmail
    rw [if_neg he]
    rfl
  · intro es ops
    induction ops generalizing es with
    | nil => intro h; exact h
    | cons op ops ih =>
      intro h
      unfold runEmailOps
      rw [List.foldl_cons]
      rcases op with e | e
      · rcases hres : SetPrimaryEmail es e with msg | es'
        · simp only [hres]
          exact ih es h
        · simp only [hres]
          refine ih es' ?_
          have := hset es e es' hres
          intro hnil
          rw [hnil] at this
          exact absurd this (by simp)
      · rcases hres : RemoveEmail es e with msg | es'
        · simp only [hres]
          exact ih es h
        · simp only [hres]
          exact ih es' (hrem es e es' hres)

/-- Witness for C9 amended: initializing an empty email list with a concrete
address yields exactly its normalized singleton. -/
theorem c9_email_invariant_witness :
    SetPrimaryEmail [] "a@b.com" = .ok [normalizeEmail "a@b.com"] :=
  c9_email_invariant.1 "a@b.com" (by decide)

/- ===================== Slugify (src/circle.go 441-454) ===================== -/

/-- The character class kept by the regex `[^a-z0-9 _-]` replacement of
`Slugify` (codepoints: a-z 97-122, 0-9 48-57, space 32, underscore 95,
dash 45). -/
def isSlugKeepChar (c : Char) : Bool :=
  (97 ≤ c.toNat && c.toNat ≤ 122) || (48 ≤ c.toNat && c.toNat ≤ 57) ||
  c.toNat == 32 || c.toNat == 95 || c.toNat == 45

/-- The whitespace class of the Go regexp `\s`: tab 9, newline 10, form feed
12, carriage return 13, space 32. -/
def isWsChar (c : Char) : Bool :=
  c.toNat == 9 || c.toNat == 10 || c.toNat == 12 || c.toNat == 13 || c.toNat == 32

/-- The cutset of `strings.Trim(s, "-")`: the dash, codepoint 45. -/
def isDashChar (c : Char) : Bool :=
  c.toNat == 45

/-- The alphabet of a finished slug: lowercase ASCII letters, digits,
underscore and dash. -/
def isSlugOutChar (c : Char) : Bool :=
  (97 ≤ c.toNat && c.toNat ≤ 122) || (48 ≤ c.toNat && c.toNat ≤ 57) ||
  c.toNat == 95 || c.toNat == 45

/-- The regexp replacement `\s+` -> `-`: each maximal run of whitespace
characters becomes a single dash. -/
def collapseWs : List Char → List Char
  | [] => []
  | c :: cs =>
    if isWsChar c then '-' :: collapseWs (cs.dropWhile isWsChar)
    else c :: collapseWs cs
termination_by l => l.length
decreasing_by
all_goals simp only [List.length_cons]
· have h : (cs.dropWhile isWsChar).length ≤ cs.length :=
    (List.dropWhile_sublist isWsChar).length_le
  omega
· omega

/-- `strings.Trim(s, "-")`: drop dashes from both ends. -/
def trimDash (l : List Char) : List Char :=
  (l.dropWhile isDashChar).rdropWhile isDashChar

/-- The pipeline of `Slugify` after transliteration: lowercase (Go
`strings.ToLower`, modelled per codepoint by `Char.toLower`, exact on ASCII),
remove characters outside `[a-z0-9 _-]`, replace whitespace runs by a dash,
trim dashes. -/
def slugAfter (l : List Char) : List Char :=
  trimDash (collapseWs ((l.map Char.toLower).filter isSlugKeepChar))

/-- src/circle.go lines 447-454, `func Slugify(s string) string`: the external
`unidecode.Unidecode` transliteration is a function parameter, followed by the
pure pipeline. -/
def Slugify (unidec : String → String) (s : String) : String :=
  ⟨slugAfter (unidec s).data⟩

/-- Every character of the whitespace-collapsed list is a dash or a
non-whitespace character of the input. -/
theorem mem_collapseWs : ∀ (l : List Char) (c : Char),
    c ∈ collapseWs l → c = '-' ∨ (c ∈ l ∧ isWsChar c = false) := by
  intro l
  induction l using collapseWs.induct with
  | case1 => intro c h; exact absurd h (by simp [collapseWs])
  | case2 d cs hws ih =>
    intro c h
    rw [collapseWs] at h
    rw [if_pos hws] at h
    rcases List.mem_cons.mp h with h1 | h2
    · exact Or.inl h1
    · rcases ih c h2 with h3 | ⟨h4, h5⟩
      · exact Or.inl h3
      · exact Or.inr ⟨List.mem_cons_of_mem d ((List.dropWhile_sublist isWsChar).subset h4), h5⟩
  | case3 d cs hws ih =>
    intro c h
    rw [collapseWs] at h
    rw [if_neg hws] at h
    rcases List.mem_cons.mp h with h1 | h2
    · subst h1
      exact Or.inr ⟨List.mem_cons_self _ _, by simpa using hws⟩
    · rcases ih c h2 with h3 | ⟨h4, h5⟩
      · exact Or.inl h3
      · exact Or.inr ⟨List.mem_cons_of_mem d h4, h5⟩

/-- Collapsing whitespace is the identity on whitespace-free lists. -/
theorem collapseWs_eq_self : ∀ (l : List Char), (∀ c ∈ l, isWsChar c = false) → collapseWs l = l := by
  intro l
  induction l using collapseWs.induct with
  | case1 => intro _; simp [collapseWs]
  | case2 d cs hws ih =>
    intro h
    exact absurd (h d (List.mem_cons_self _ _)) (by rw [hws]; simp)
  | case3 d cs hws ih =>
    intro h
    rw [collapseWs, if_neg hws]
    rw [ih (fun c hc => h c (List.mem_cons_of_mem d hc))]

/-- Lowercasing fixes every character of the slug alphabet. -/
theorem toLower_fixes_out (c : Char) (h : isSlugOutChar c = true) : Char.toLower c = c := by
  have hn : ¬(c.toNat ≥ 65 ∧ c.toNat ≤ 90) := by
    simp only [isSlugOutChar, Bool.or_eq_true, Bool.and_eq_true, decide_eq_true_eq,
      Nat.beq_eq_true_eq] at h
    omega
  simp only [Char.toLower]
  rw [if_neg hn]

/-- Lowercasing fixes strings over the slug alphabet. -/
theorem map_toLower_eq_self : ∀ (l : List Char), l.all isSlugOutChar = true →
    l.map Char.toLower = l := by
  intro l
  induction l with
  | nil => intro _; rfl
  | cons c cs ih =>
    intro h
    rw [List.all_cons, Bool.and_eq_true] at h
    rw [List.map_cons, toLower_fixes_out c h.1, ih h.2]

/-- Trimming dashes only removes characters. -/
theorem trimDash_subset {l : List Char} {c : Char} (h : c ∈ trimDash l) : c ∈ l := by
  unfold trimDash at h
  exact (List.dropWhile_sublist isDashChar).subset
    ((List.rdropWhile_prefix isDashChar _).sublist.subset h)

/-- The slug pipeline emits only characters of the slug alphabet. -/
theorem slugAfter_all_out (l : List Char) : (slugAfter l).all isSlugOutChar = true := by
  rw [List.all_eq_true]
  intro c hc
  have h1 : c ∈ collapseWs ((l.map Char.toLower).filter isSlugKeepChar) := trimDash_subset hc
  rcases mem_collapseWs _ c h1 with h2 | ⟨h3, h4⟩
  · subst h2; decide
  · have hk : isSlugKeepChar c = true := (List.mem_filter.mp h3).2
    simp only [isSlugKeepChar, Bool.or_eq_true, Bool.and_eq_true, decide_eq_true_eq,
      Nat.beq_eq_true_eq] at hk
    have h32 : c.toNat ≠ 32 := by
      intro hx
      have hw : isWsChar c = true := by simp [isWsChar, hx]
      rw [hw] at h4
      exact absurd h4 (by simp)
    simp only [isSlugOutChar, Bool.or_eq_true, Bool.and_eq_true, decide_eq_true_eq,
      Nat.beq_eq_true_eq]
    omega

/-- A dash-trimmed list does not start with a dash. -/
theorem trimDash_head_not {l : List Char} {c : Char} (h : (trimDash l).head? = some c) :
    isDashChar c = false := by
  unfold trimDash at h
  rcases he : (l.dropWhile isDashChar).rdropWhile isDashChar with _ | ⟨a, t⟩
  · rw [he] at h; exact absurd h (by simp)
  · rw [he] at h
    simp only [List.head?_cons, Option.some.injEq] at h
    obtain ⟨r, hr⟩ := List.rdropWhile_prefix isDashChar (l.dropWhile isDashChar)
    rw [he] at hr
    have hmne : l.dropWhile isDashChar ≠ [] := by
      rw [← hr]; simp
    have hd := List.head_dropWhile_not isDashChar l hmne
    have h2 : (l.dropWhile isDashChar).head? = some a := by
      rw [← hr]; simp
    rw [List.head?_eq_head hmne] at h2
    injection h2 with h3
    rw [h3, h] at hd
    exact hd

/-- A dash-trimmed list does not end with a dash. -/
theorem trimDash_getLast_not {l : List Char} {c : Char} (h : (trimDash l).getLast? = some c) :
    isDashChar c = false := by
  unfold trimDash at h
  have hne : (l.dropWhile isDashChar).rdropWhile isDashChar ≠ [] := by
    intro hn; rw [hn] at h; exact absurd h (by simp)
  have hd := List.rdropWhile_last_not isDashChar (l.dropWhile isDashChar) hne
  rw [List.getLast?_eq_getLast _ hne] at h
  injection h with h2
  rw [h2] at hd
  exact Bool.eq_false_iff.mpr hd

/-- Dropping a prefix is the identity when the head does not satisfy the
predicate. -/
theorem dropWhile_eq_self_of_head {p : Char → Bool} {l : List Char}
    (h : ∀ c, l.head? = some c → p c = false) : l.dropWhile p = l := by
  cases l with
  | nil => rfl
  | cons a t =>
    have := h a rfl
    simp [List.dropWhile, this]

/-- Trimming dashes is idempotent. -/
theorem trimDash_idem (l : List Char) : trimDash (trimDash l) = trimDash l := by
  have h1 : (trimDash l).dropWhile isDashChar = trimDash l :=
    dropWhile_eq_self_of_head (fun c hc => trimDash_head_not hc)
  show ((trimDash l).dropWhile isDashChar).rdropWhile isDashChar = trimDash l
  rw [h1]
  show ((l.dropWhile isDashChar).rdropWhile isDashChar).rdropWhile isDashChar = trimDash l
  rw [List.rdropWhile_idempotent]
  rfl

/-- The slug pipeline after transliteration is idempotent. -/
theorem slugAfter_idem (m : List Char) : slugAfter (slugAfter m) = slugAfter m := by
  have hall : (slugAfter m).all isSlugOutChar = true := slugAfter_all_out m
  show trimDash (collapseWs (((slugAfter m).map Char.toLower).filter isSlugKeepChar)) = slugAfter m
  rw [map_toLower_eq_self _ hall]
  have hkeep : ∀ a ∈ slugAfter m, isSlugKeepChar a = true := by
    intro a ha
    have := List.all_eq_true.mp hall a ha
    simp only [isSlugOutChar, Bool.or_eq_true, Bool.and_eq_true, decide_eq_true_eq,
      Nat.beq_eq_true_eq] at this
    simp only [isSlugKeepChar, Bool.or_eq_true, Bool.and_eq_true, decide_eq_true_eq,
      Nat.beq_eq_true_eq]
    omega
  rw [List.filter_eq_self.mpr hkeep]
  have hws : ∀ a ∈ slugAfter m, isWsChar a = false := by
    intro a ha
    have hout := List.all_eq_true.mp hall a ha
    simp only [isSlugOutChar, Bool.or_eq_true, Bool.and_eq_true, decide_eq_true_eq,
      Nat.beq_eq_true_eq] at hout
    rw [Bool.eq_false_iff]
    intro hx
    simp only [isWsChar, Bool.or_eq_true, Nat.beq_eq_true_eq] at hx
    omega
  rw [collapseWs_eq_self _ hws]
  exact trimDash_idem (collapseWs ((m.map Char.toLower).filter isSlugKeepChar))

/-- C10: Slugify is idempotent whenever the transliteration step fixes
finished slugs (Unidecode maps printable ASCII to itself), its output uses
only lowercase ASCII letters, digits, underscore and dash, and neither starts
nor ends with a dash. -/
theorem c10_slugify_properties (unidec : String → String)
    (h : ∀ t : String, t.data.all isSlugOutChar = true → unidec t = t) (s : String) :
    Slugify unidec (Slugify unidec s) = Slugify unidec s ∧
    (Slugify unidec s).data.all isSlugOutChar = true ∧
    (Slugify unidec s).data.head? ≠ some '-' ∧
    (Slugify unidec s).data.getLast? ≠ some '-' := by
  have hall : (Slugify unidec s).data.all isSlugOutChar = true := slugAfter_all_out _
  refine ⟨?_, hall, ?_, ?_⟩
  · have hu : unidec (Slugify unidec s) = Slugify unidec s := h _ hall
    show (⟨slugAfter (unidec (Slugify unidec s)).data⟩ : String) = Slugify unidec s
    rw [hu]
    show (⟨slugAfter (slugAfter (unidec s).data)⟩ : String) = (⟨slugAfter (unidec s).data⟩ : String)
    rw [slugAfter_idem]
  · intro hc
    have hd : isDashChar '-' = false := trimDash_head_not hc
    exact absurd hd (by decide)
  · intro hc
    have hd : isDashChar '-' = false := trimDash_getLast_not hc
    exact absurd hd (by decide)

/-- Witness for C10: the identity transliteration satisfies the hypothesis,
and Slugify is idempotent on a concrete string. -/
theorem c10_slugify_properties_witness :
    Slugify (fun t => t) (Slugify (fun t => t) "Hello World") = Slugify (fun t => t) "Hello World" :=
  (c10_slugify_properties (fun t => t) (fun _ _ => rfl) "Hello World").1

/- ===================== Feed (src/unnamed/part_001 219-234, couchdb/views/user/map.js) ===================== -/

/-- Codepoint-wise lexicographic comparison of character lists: the order of
the CouchDB view keys emitted by `map.js` (raw string comparison). -/
def charListLtB : List Char → List Char → Bool
  | [], [] => false
  | [], _ :: _ => true
  | _ :: _, [] => false
  | a :: as, b :: bs =>
    if a.toNat < b.toNat then true
    else if b.toNat < a.toNat then false
    else charListLtB as bs

/-- Strict codepoint order on strings. -/
def strLtB (a b : String) : Bool :=
  charListLtB a.data b.data

/-- The codepoint order is transitive. -/
theorem charListLtB_trans : ∀ {as bs cs : List Char},
    charListLtB as bs = true → charListLtB bs cs = true → charListLtB as cs = true := by
  intro as
  induction as with
  | nil =>
    intro bs cs h1 h2
    cases bs with
    | nil => exact absurd h1 (by simp [charListLtB])
    | cons b bs =>
      cases cs with
      | nil => exact absurd h2 (by simp [charListLtB])
      | cons c cs => simp [charListLtB]
  | cons a as ih =>
    intro bs cs h1 h2
    cases bs with
    | nil => exact absurd h1 (by simp [charListLtB])
    | cons b bs =>
      cases cs with
      | nil => exact absurd h2 (by simp [charListLtB])
      | cons c cs =>
        unfold charListLtB at h1 h2 ⊢
        by_cases hab : a.toNat < b.toNat
        · by_cases hbc : b.toNat < c.toNat
          · rw [if_pos (by omega)]
          · rw [if_pos hab] at h1
            by_cases hcb : c.toNat < b.toNat
            · rw [if_neg hbc, if_pos hcb] at h2
              exact absurd h2 (by simp)
            · have : b.toNat = c.toNat := by omega
              rw [if_pos (by omega)]
        · by_cases hba : b.toNat < a.toNat
          · rw [if_neg hab, if_pos hba] at h1
            exact absurd h1 (by simp)
          · have hab2 : a.toNat = b.toNat := by omega
            rw [if_neg hab, if_neg hba] at h1
            by_cases hbc : b.toNat < c.toNat
            · rw [if_pos (by omega)]
            · by_cases hcb : c.toNat < b.toNat
              · rw [if_neg hbc, if_pos hcb] at h2
                exact absurd h2 (by simp)
              · rw [if_neg hbc, if_neg hcb] at h2
                rw [if_neg (by omega), if_neg (by omega)]
                exact ih h1 h2

/-- Two lists incomparable under the codepoint order are equal. -/
theorem charListLtB_connex : ∀ {as bs : List Char},
    charListLtB as bs = false → charListLtB bs as = false → as = bs := by
  intro as
  induction as with
  | nil =>
    intro bs h1 _
    cases bs with
    | nil => rfl
    | cons b bs => exact absurd h1 (by simp [charListLtB])
  | cons a as ih =>
    intro bs h1 h2
    cases bs with
    | nil => exact absurd h2 (by simp [charListLtB])
    | cons b bs =>
      unfold charListLtB at h1 h2
      by_cases hab : a.toNat < b.toNat
      · rw [if_pos hab] at h1
        exact absurd h1 (by simp)
      · by_cases hba : b.toNat < a.toNat
        · rw [if_pos hba] at h2
          exact absurd h2 (by simp)
        · rw [if_neg hab, if_neg hba] at h1
          rw [if_neg hba, if_neg hab] at h2
          have heq : a.toNat = b.toNat := by omega
          have hac : a = b := by
            have h3 := congrArg Char.ofNat heq
            rwa [Char.ofNat_toNat, Char.ofNat_toNat] at h3
          rw [hac, ih h1 h2]

/-- Transitivity of the string codepoint order. -/
theorem strLtB_trans {a b c : String} (h1 : strLtB a b = true) (h2 : strLtB b c = true) :
    strLtB a c = true :=
  charListLtB_trans h1 h2

/-- Connexity of the string codepoint order. -/
theorem strLtB_connex {a b : String} (h1 : strLtB a b = false) (h2 : strLtB b a = false) :
    a = b := by
  have := charListLtB_connex h1 h2
  cases a
  cases b
  exact congrArg String.mk this

/-- A row of the `user` view for a fixed user: the emitted key
`[doc.user, typ, doc.date]` (the user component is the query key and constant
across rows) plus the document id tie-break and the value `{_id: target}`. -/
structure Row where
  typ : String
  date : Int
  docId : String
  target : String
deriving DecidableEq

/-- CouchDB array-key order on the rows of one user: compare the type string,
then the date, then the tie-breaking document id. -/
def keyLEb (a b : Row) : Bool :=
  strLtB a.typ b.typ ||
  (a.typ == b.typ &&
    (a.date < b.date ||
      (a.date == b.date && (strLtB a.docId b.docId || a.docId == b.docId))))

/-- The order in which `GetFeed` receives rows: `descending=true`, so row `a`
precedes row `b` when the key of `b` is at most the key of `a`. -/
def rowGE (a b : Row) : Prop := keyLEb b a = true

instance rowGE.decidable (a b : Row) : Decidable (rowGE a b) := by
  unfold rowGE
  infer_instance

/-- The key order is total. -/
theorem keyLEb_total (a b : Row) : keyLEb a b = true ∨ keyLEb b a = true := by
  unfold keyLEb
  simp only [Bool.or_eq_true, Bool.and_eq_true, beq_iff_eq, decide_eq_true_eq]
  by_cases h1 : strLtB a.typ b.typ = true
  · exact Or.inl (Or.inl h1)
  by_cases h2 : strLtB b.typ a.typ = true
  · exact Or.inr (Or.inl h2)
  have htyp : a.typ = b.typ := strLtB_connex (by simpa using h1) (by simpa using h2)
  rcases lt_trichotomy a.date b.date with hd | hd | hd
  · exact Or.inl (Or.inr ⟨htyp, Or.inl hd⟩)
  · by_cases h3 : strLtB a.docId b.docId = true
    · exact Or.inl (Or.inr ⟨htyp, Or.inr ⟨hd, Or.inl h3⟩⟩)
    by_cases h4 : strLtB b.docId a.docId = true
    · exact Or.inr (Or.inr ⟨htyp.symm, Or.inr ⟨hd.symm, Or.inl h4⟩⟩)
    have hdoc : a.docId = b.docId := strLtB_connex (by simpa using h3) (by simpa using h4)
    exact Or.inl (Or.inr ⟨htyp, Or.inr ⟨hd, Or.inr hdoc⟩⟩)
  · exact Or.inr (Or.inr ⟨htyp.symm, Or.inl hd⟩)

/-- The key order is transitive. -/
theorem keyLEb_trans {a b c : Row} (h1 : keyLEb a b = true) (h2 : keyLEb b c = true) :
    keyLEb a c = true := by
  unfold keyLEb at h1 h2 ⊢
  simp only [Bool.or_eq_true, Bool.and_eq_true, beq_iff_eq, decide_eq_true_eq] at h1 h2 ⊢
  rcases h1 with h1 | ⟨he1, h1⟩
  · rcases h2 with h2 | ⟨he2, h2⟩
    · exact Or.inl (strLtB_trans h1 h2)
    · exact Or.inl (he2 ▸ h1)
  · rcases h2 with h2 | ⟨he2, h2⟩
    · exact Or.inl (he1 ▸ h2)
    · refine Or.inr ⟨he1.trans he2, ?_⟩
      rcases h1 with h1 | ⟨hd1, h1⟩
      · rcases h2 with h2 | ⟨hd2, h2⟩
        · exact Or.inl (h1.trans h2)
        · exact Or.inl (hd2 ▸ h1)
      · rcases h2 with h2 | ⟨hd2, h2⟩
        · exact Or.inl (hd1 ▸ h2)
        · refine Or.inr ⟨hd1.trans hd2, ?_⟩
          rcases h1 with h1 | h1
          · rcases h2 with h2 | h2
            · exact Or.inl (strLtB_trans h1 h2)
            · exact Or.inl (h2 ▸ h1)
          · rcases h2 with h2 | h2
            · exact Or.inl (h1 ▸ h2)
            · exact Or.inr (h1.trans h2)

instance : IsTotal Row rowGE :=
  ⟨fun a b => keyLEb_total b a⟩

instance : IsTrans Row rowGE :=
  ⟨fun _ _ _ h1 h2 => keyLEb_trans h2 h1⟩

/-- A `member` document: user, circle, rights omitted (unused by the feed),
join date, plus its CouchDB id. -/
structure memberDoc where
  docId : String
  user : String
  circle : String
  date : Int
deriving DecidableEq

/-- A `participant` document: user, event, join date, plus its CouchDB id. -/
structure partDocF where
  docId : String
  user : String
  event : String
  date : Int
deriving DecidableEq

/-- The event document decoded into a feed entry (part_003 second variant,
fields of the `Event` proxy populated by `FeedEntry.UnmarshalJSON`); `status`
is the stored status field of that variant. -/
structure EventF where
  id : String
  location : String
  title : String
  info : String
  creator : String
  status : String
  date : Int
  created : Int
  threshold : Int
deriving DecidableEq

/-- The circle document decoded into a feed entry: id, name, slug. -/
structure CircleF where
  id : String
  name : String
  slug : String
deriving DecidableEq

/-- The document store as seen by the feed: member, participant, event and
circle documents, plus dismissal records (the latter only used by the
spec-modelled `Dismiss`/`GetNotifications`). -/
structure Store where
  members : List memberDoc
  participants : List partDocF
  events : List EventF
  circles : List CircleF
  dismissals : List (String × String)
deriving DecidableEq

/-- part_001 lines 173-217, `FeedEntry`: a tagged union of an event and a
circle, decoded from the fetched document by its `type` field. -/
inductive FeedEntry where
  | event (e : EventF)
  | circle (c : CircleF)
deriving DecidableEq

/-- couchdb/views/user/map.js: member documents emit
`[doc.user, "circle", doc.date] -> {_id: doc.circle}` and participant
documents emit `[doc.user, "participant", doc.date] -> {_id: doc.event}`;
these are the rows of the key range `[u] .. [u, {}]`. -/
def userViewRows (st : Store) (u : String) : List Row :=
  ((st.members.filter (fun m => m.user == u)).map
    (fun m => ⟨"circle", m.date, m.docId, m.circle⟩)) ++
  ((st.participants.filter (fun p => p.user == u)).map
    (fun p => ⟨"participant", p.date, p.docId, p.event⟩))

/-- The rows as returned by the view query of `GetFeed`: ordered by key,
descending (part_001 line 222: `descending=true`). -/
def sortedRows (st : Store) (u : String) : List Row :=
  List.insertionSort rowGE (userViewRows st u)

/-- `include_docs=true` resolution of a row value `{_id: tid}` followed by the
`FeedEntry.UnmarshalJSON` dispatch on the document type: an event document
yields an event entry, a circle document a circle entry, anything else fails. -/
def resolveDoc (st : Store) (tid : String) : Option FeedEntry :=
  match st.events.find? (fun e => e.id == tid) with
  | some e => some (.event e)
  | none =>
    match st.circles.find? (fun c => c.id == tid) with
    | some c => some (.circle c)
    | none => none

/-- Decoding of all rows in order; the first undecodable row aborts the
query decoding (part_001 lines 181-217). -/
def resolveAll (st : Store) : List Row → Option (List FeedEntry)
  | [] => some []
  | r :: rs =>
    match resolveDoc st r.target, resolveAll st rs with
    | some e, some es => some (e :: es)
    | _, _ => none

/-- part_001 lines 219-234, `func (db *DB) GetFeed(userId string)`: query the
`user` view descending with documents and return the decoded entries; a row
that decodes to neither event nor circle fails the call. -/
def GetFeed (st : Store) (u : String) : Except String (List FeedEntry) :=
  match resolveAll st (sortedRows st u) with
  | some l => .ok l
  | none => .error "feed entry: not event nor circle"

/-- The id of the document a feed entry was decoded from. -/
def entryId : FeedEntry → String
  | .event e => e.id
  | .circle c => c.id

/-- Following the words of the spec (§4.3 step 6): the natural date of each
returned row — the scheduled date of the event for an event entry, the join
date for a membership entry.  Used to state the ordering the claim asserts. -/
def naturalDates (st : Store) (u : String) : List Int :=
  (sortedRows st u).map
    (fun r =>
      match st.events.find? (fun e => e.id == r.target) with
      | some e => e.date
      | none => r.date)

/-- Modelled from the spec: `Dismiss(targetId, user)` appends a dismissal
record; write-once, irreversible; duplicate dismissals are harmless.  No
dismissal code exists under src/. -/
def Dismiss (st : Store) (u target : String) : Store :=
  { st with dismissals := st.dismissals ++ [(u, target)] }

/-- Modelled from the spec: `GetNotifications` is the feed query of
`GetFeed` with per-user dismissal filtering (spec §4.3 steps 2-4) — rows whose
target the user has dismissed are removed before decoding.  No dismissal
filtering exists under src/. -/
def GetNotifications (st : Store) (u : String) : Except String (List FeedEntry) :=
  match resolveAll st ((sortedRows st u).filter (fun r => !((u, r.target) ∈ st.dismissals))) with
  | some l => .ok l
  | none => .error "feed entry: not event nor circle"

/-- A concrete store: user `u` joined circle `c1` at instant 300 and joined
event `e1` (scheduled at 100) at instant 50. -/
def feedStore : Store :=
  { members := [⟨"m1", "u", "c1", 300⟩]
    participants := [⟨"p1", "u", "e1", 50⟩]
    events := [⟨"e1", "loc", "title", "info", "u", "", 100, 0, 2⟩]
    circles := [⟨"c1", "Club", "club"⟩]
    dismissals := [] }

/-- Successful decoding relates rows and entries pointwise. -/
theorem resolveAll_forall2 (st : Store) : ∀ (rs : List Row) (l : List FeedEntry),
    resolveAll st rs = some l →
    List.Forall₂ (fun r e => resolveDoc st r.target = some e) rs l := by
  intro rs
  induction rs with
  | nil =>
    intro l h
    unfold resolveAll at h
    cases h
    exact List.Forall₂.nil
  | cons r rs ih =>
    intro l h
    unfold resolveAll at h
    rcases hd : resolveDoc st r.target with _ | e
    · rw [hd] at h
      exact absurd h (by simp)
    · rw [hd] at h
      rcases ha : resolveAll st rs with _ | es
      · rw [ha] at h
        exact absurd h (by simp)
      · rw [ha] at h
        simp only [Option.some.injEq] at h
        subst h
        exact List.Forall₂.cons hd (ih es ha)

/-- A resolved entry carries the id it was resolved from. -/
theorem resolveDoc_entryId {st : Store} {tid : String} {e : FeedEntry}
    (h : resolveDoc st tid = some e) : entryId e = tid := by
  unfold resolveDoc at h
  rcases hf : st.events.find? (fun d => d.id == tid) with _ | d
  · rw [hf] at h
    rcases hc : st.circles.find? (fun c => c.id == tid) with _ | c
    · rw [hc] at h
      exact absurd h (by simp)
    · rw [hc] at h
      simp only [Option.some.injEq] at h
      subst h
      have := List.find?_some hc
      rw [beq_iff_eq] at this
      exact this
  · rw [hf] at h
    simp only [Option.some.injEq] at h
    subst h
    have := List.find?_some hf
    rw [beq_iff_eq] at this
    exact this

/-- A member of the right list of a `Forall₂` has a related left partner. -/
theorem forall2_mem_right {α β : Type} {Q : α → β → Prop} :
    ∀ {l : List α} {l' : List β}, List.Forall₂ Q l l' → ∀ {b}, b ∈ l' →
      ∃ a ∈ l, Q a b := by
  intro l l' hf
  induction hf with
  | nil => intro b hb; exact absurd hb (by simp)
  | cons hq _ ih =>
    intro b hb
    rcases List.mem_cons.mp hb with hb | hb
    · subst hb
      exact ⟨_, List.mem_cons_self _ _, hq⟩
    · obtain ⟨a, ha, hqa⟩ := ih hb
      exact ⟨a, List.mem_cons_of_mem _ ha, hqa⟩

/-- Pairwise properties transport along a pointwise relation. -/
theorem pairwise_of_forall2 {α β : Type} {Q : α → β → Prop} {R : α → α → Prop}
    {S : β → β → Prop}
    (hcomp : ∀ a a' b b', R a a' → Q a b → Q a' b' → S b b') :
    ∀ {l : List α} {l' : List β}, List.Forall₂ Q l l' → l.Pairwise R → l'.Pairwise S := by
  intro l l' hf
  induction hf with
  | nil => intro _; exact List.Pairwise.nil
  | cons hq hf2 ih =>
    intro hp
    rcases List.pairwise_cons.mp hp with ⟨hr, hp2⟩
    refine List.pairwise_cons.mpr ⟨?_, ih hp2⟩
    intro b hb
    obtain ⟨a2, ha2, hq2⟩ := forall2_mem_right hf2 hb
    exact hcomp _ _ _ _ (hr a2 ha2) hq hq2

/-- C6 amended: for a fixed store the feed is a pure function of the store;
it contains no entry twice provided the participation records of the user
have pairwise distinct events, the membership records pairwise distinct
circles, and circle targets differ from event targets; and the returned rows
are sorted descending by the view key (type string, then join date, then
document id) — not by the natural date of the claim. -/
theorem c6_feed_dedup_sorted (st : Store) (u : String)
    (hp : (st.participants.filter (fun p => p.user == u)).Pairwise
      (fun p q => p.event ≠ q.event))
    (hm : (st.members.filter (fun m => m.user == u)).Pairwise
      (fun m n => m.circle ≠ n.circle))
    (hmp : ∀ m ∈ st.members.filter (fun m => m.user == u),
      ∀ p ∈ st.participants.filter (fun p => p.user == u), m.circle ≠ p.event) :
    (∀ l, GetFeed st u = .ok l → l.Pairwise (· ≠ ·)) ∧
    List.Sorted rowGE (sortedRows st u) := by
  constructor
  · intro l hfeed
    unfold GetFeed at hfeed
    rcases hres : resolveAll st (sortedRows st u) with _ | l2
    · rw [hres] at hfeed
      exact absurd hfeed (by simp)
    · rw [hres] at hfeed
      simp only [Except.ok.injEq] at hfeed
      subst hfeed
      have hf2 := resolveAll_forall2 st _ _ hres
      have hrows : (userViewRows st u).Pairwise (fun r r2 => r.target ≠ r2.target) := by
        unfold userViewRows
        rw [List.pairwise_append]
        refine ⟨?_, ?_, ?_⟩
        · rw [List.pairwise_map]
          exact hm
        · rw [List.pairwise_map]
          exact hp
        · intro r1 hr1 r2 hr2
          rw [List.mem_map] at hr1 hr2
          obtain ⟨m, hmm, hm1⟩ := hr1
          obtain ⟨p, hpp, hp2⟩ := hr2
          subst hm1
          subst hp2
          exact hmp m hmm p hpp
      have hsorted_pair : (sortedRows st u).Pairwise (fun r r2 => r.target ≠ r2.target) := by
        have hperm := List.perm_insertionSort rowGE (userViewRows st u)
        exact (hperm.pairwise_iff (fun h => Ne.symm h)).mpr hrows
      refine pairwise_of_forall2 ?_ hf2 hsorted_pair
      intro r r2 e e2 hR hq hq2 he
      apply hR
      rw [← resolveDoc_entryId hq, ← resolveDoc_entryId hq2, he]
  · exact List.sorted_insertionSort rowGE (userViewRows st u)

/-- C7: for a user with no membership and no participation records the feed
query succeeds with the empty sequence. -/
theorem c7_zero_circles (st : Store) (u : String)
    (hm : ∀ m ∈ st.members, m.user ≠ u)
    (hp : ∀ p ∈ st.participants, p.user ≠ u) :
    GetFeed st u = .ok [] := by
  have h1 : st.members.filter (fun m => m.user == u) = [] := by
    rw [List.filter_eq_nil_iff]
    intro a ha hb
    exact hm a ha (by rwa [beq_iff_eq] at hb)
  have h2 : st.participants.filter (fun p => p.user == u) = [] := by
    rw [List.filter_eq_nil_iff]
    intro a ha hb
    exact hp a ha (by rwa [beq_iff_eq] at hb)
  have hrows : userViewRows st u = [] := by
    unfold userViewRows
    rw [h1, h2]
    rfl
  unfold GetFeed sortedRows
  rw [hrows]
  rfl

/-- Decoding ignores dismissal records. -/
theorem resolveAll_dismiss (st : Store) (u x : String) :
    ∀ rs, resolveAll (Dismiss st u x) rs = resolveAll st rs := by
  intro rs
  induction rs with
  | nil => rfl
  | cons r rs ih =>
    unfold resolveAll
    rw [ih]
    rfl

/-- C8: dismissing the same target twice yields the same notifications as
dismissing it once, and once a dismissal record for (user, x) is in the store,
no entry with target x appears in any result of GetNotifications(user). -/
theorem c8_dismiss_idempotent_excludes (st st' : Store) (u x : String) :
    GetNotifications (Dismiss (Dismiss st u x) u x) u = GetNotifications (Dismiss st u x) u ∧
    ((u, x) ∈ st'.dismissals →
      ∀ l, GetNotifications st' u = .ok l → ∀ en ∈ l, entryId en ≠ x) := by
  constructor
  · unfold GetNotifications
    have hsort : sortedRows (Dismiss (Dismiss st u x) u x) u = sortedRows (Dismiss st u x) u :=
      rfl
    rw [hsort]
    have hfilter :
        (sortedRows (Dismiss st u x) u).filter
            (fun r => !((u, r.target) ∈ (Dismiss (Dismiss st u x) u x).dismissals)) =
          (sortedRows (Dismiss st u x) u).filter
            (fun r => !((u, r.target) ∈ (Dismiss st u x).dismissals)) := by
      apply List.filter_congr
      intro r _
      have hiff : ((u, r.target) ∈ (Dismiss (Dismiss st u x) u x).dismissals) ↔
          ((u, r.target) ∈ (Dismiss st u x).dismissals) := by
        show ((u, r.target) ∈ (Dismiss st u x).dismissals ++ [(u, x)]) ↔ _
        rw [List.mem_append]
        constructor
        · rintro (h | h)
          · exact h
          · simp only [List.mem_singleton, Prod.mk.injEq] at h
            rw [h.2]
            show (u, x) ∈ st.dismissals ++ [(u, x)]
            exact List.mem_append_right _ (by simp)
        · exact Or.inl
      have hdec : (decide ((u, r.target) ∈ (Dismiss (Dismiss st u x) u x).dismissals)) =
          (decide ((u, r.target) ∈ (Dismiss st u x).dismissals)) :=
        decide_eq_decide.mpr hiff
      rw [hdec]
    rw [hfilter, resolveAll_dismiss (Dismiss st u x) u x]
  · intro hdx l hok en hen
    unfold GetNotifications at hok
    rcases hres : resolveAll st'
        ((sortedRows st' u).filter (fun r => !((u, r.target) ∈ st'.dismissals))) with _ | l2
    · rw [hres] at hok
      exact absurd hok (by simp)
    · rw [hres] at hok
      simp only [Except.ok.injEq] at hok
      subst hok
      have hf2 := resolveAll_forall2 st' _ _ hres
      obtain ⟨r, hr, hq⟩ := forall2_mem_right hf2 hen
      have hrt : entryId en = r.target := resolveDoc_entryId hq
      have hmem := List.mem_filter.mp hr
      intro hex
      rw [hrt] at hex
      have hbool := hmem.2
      rw [hex] at hbool
      simp only [Bool.not_eq_true', decide_eq_false_iff_not] at hbool
      exact hbool hdx

/-- C6 counterexample: per the claim the feed must be sorted descending by
natural date (event: scheduled date; membership: join date).  In `feedStore`
the participation row precedes the membership row (the view key groups by
type string, "participant" > "circle"), so the natural dates come out as
[100, 300] — ascending, not descending. -/
theorem c6_counterexample :
    GetFeed feedStore "u" =
      .ok [.event ⟨"e1", "loc", "title", "info", "u", "", 100, 0, 2⟩,
        .circle ⟨"c1", "Club", "club"⟩] ∧
    naturalDates feedStore "u" = [100, 300] ∧
    ¬ List.Sorted (fun a b : Int => b ≤ a) (naturalDates feedStore "u") :=
  ⟨rfl, rfl, by decide⟩

/-- Witness for C6 amended at the concrete `feedStore`. -/
theorem c6_feed_dedup_sorted_witness : List.Sorted rowGE (sortedRows feedStore "u") :=
  (c6_feed_dedup_sorted feedStore "u" (by decide) (by decide) (by decide)).2

/-- Witness for C7: a user with no records in the concrete store gets an
empty feed. -/
theorem c7_zero_circles_witness : GetFeed feedStore "nobody" = .ok [] :=
  c7_zero_circles feedStore "nobody" (by decide) (by decide)

/-- Witness for C8 at the concrete `feedStore`: dismissing `e1` twice gives
the same notifications as dismissing it once. -/
theorem c8_dismiss_witness :
    GetNotifications (Dismiss (Dismiss feedStore "u" "e1") "u" "e1") "u" =
      GetNotifications (Dismiss feedStore "u" "e1") "u" :=
  (c8_dismiss_idempotent_excludes feedStore feedStore "u" "e1").1
